import Mathlib

/-!
Verification of the accessibility-tree renumbering node.

The source under verification is the `execute` method of the `CdpTools`
node together with its helpers `getAccessibilityTree` and `getNodesMap`.

The core algorithm (source lines 51-64) is:

  const matches = tree.matchAll(of the regex bracket (digits (hyphen digits)?) bracket space, global);
  let j = 0; let offset = 0; const xpaths = [];
  for (const match of matches)
    before  = tree.slice(0, match.index + offset);
    after   = tree.slice(match.index + match[0].length + offset);
    replace = bracket j bracket space;
    offset += replace.length - match[0].length;
    tree    = before + replace + after;
    xpaths.push(nodesMap[match[1]]);
    j++;

We embed strings as lists of characters.  JavaScript `matchAll` is lazy
over the string value captured at call time, so the match list is computed
once against the original tree; `match.index` is an index into that
original string, and `tree.slice` acts on the current, partially rewritten
string.  JavaScript numbers used for `offset` may go negative, so `offset`
is an integer and `String.prototype.slice` is embedded with its clamping
semantics.  A `Record` of string keys is embedded as an association list
with last-write-wins update; an absent key reads as `none` (JavaScript
`undefined`).
-/

/-- Character for a single decimal digit (0 ≤ n ≤ 9 intended): code 48 + n. -/
def digitChar (n : Nat) : Char := Char.ofNat (48 + n)

/-- Fueled decimal rendering, most significant digit first. -/
def natDigitsAux : Nat → Nat → List Char
  | 0, _ => []
  | f + 1, n => if n < 10 then [digitChar n] else natDigitsAux f (n / 10) ++ [digitChar (n % 10)]

/-- Decimal rendering of a natural number, embedding the JavaScript
number-to-string conversion used by the template literal for the counter j. -/
def natDigits (n : Nat) : List Char := natDigitsAux (n + 1) n

/-- The literal text of a marker with id text `id`: bracket, id, bracket, space. -/
def marker (id : List Char) : List Char := '[' :: id ++ [']', ' ']

/-- The replacement text built for counter value `j` in the loop body. -/
def rep (j : Nat) : List Char := marker (natDigits j)

/-- One attempt of the marker regex at the head of `cs`.

This embeds the regex: opening bracket, one or more digits, optionally a
hyphen and one or more digits, closing bracket, a space.  On success it
returns the captured id text (group 1) and the text after the whole match.
The backtracking semantics of the JavaScript engine collapse to this
deterministic shape: the optional hyphen group participates exactly when a
hyphen immediately follows the maximal first digit run. -/
def matchMarkerAt (cs : List Char) : Option (List Char × List Char) :=
  match cs with
  | [] => none
  | c :: rest =>
    if c = '[' then
      if rest.takeWhile Char.isDigit = [] then none
      else
        match rest.dropWhile Char.isDigit with
        | [] => none
        | c2 :: r2 =>
          if c2 = '-' then
            if r2.takeWhile Char.isDigit = [] then none
            else
              match r2.dropWhile Char.isDigit with
              | [] => none
              | [_] => none
              | c3 :: c4 :: tl =>
                if c3 = ']' ∧ c4 = ' ' then
                  some (rest.takeWhile Char.isDigit ++ '-' :: r2.takeWhile Char.isDigit, tl)
                else none
          else if c2 = ']' then
            match r2 with
            | [] => none
            | c4 :: tl => if c4 = ' ' then some (rest.takeWhile Char.isDigit, tl) else none
          else none
    else none

/-- Fueled scan embedding `matchAll` with the global flag: at each position
try the pattern; on success record (index, captured id) and resume after
the whole match, otherwise advance one character.  The fuel only bounds the
recursion; `scanI` below always supplies enough. -/
def scanF : Nat → Nat → List Char → List (Nat × List Char)
  | 0, _, _ => []
  | f + 1, i, cs =>
    match matchMarkerAt cs with
    | some (id, tl) => (i, id) :: scanF f (i + (id.length + 3)) tl
    | none =>
      match cs with
      | [] => []
      | _ :: rest => scanF f (i + 1) rest

/-- All matches of the marker regex in `cs`, indices counted from `i`. -/
def scanI (i : Nat) (cs : List Char) : List (Nat × List Char) := scanF (cs.length + 1) i cs

/-- Clamp of one JavaScript `String.prototype.slice` argument. -/
def jsClamp (len : Nat) (x : Int) : Nat :=
  if x < 0 then ((len : Int) + x).toNat else min x.toNat len

/-- JavaScript `s.slice(start, stop)` on a character list. -/
def jsSlice (s : List Char) (start stop : Int) : List Char :=
  (s.take (jsClamp s.length stop)).drop (jsClamp s.length start)

/-- JavaScript `s.slice(start)` (stop defaults to the length). -/
def jsSliceFrom (s : List Char) (start : Int) : List Char :=
  s.drop (jsClamp s.length start)

/-- Read of a JavaScript record: value of the last binding of key `k`, if any;
an absent key reads as `none` (JavaScript `undefined`).  The lists built by
`recordSet` keep keys unique, so first lookup equals last write. -/
def recordGet {α β : Type} [DecidableEq α] (m : List (α × β)) (k : α) : Option β :=
  (m.find? (fun p => decide (p.1 = k))).map (fun p => p.2)

/-- Write of a JavaScript record: overwrite the binding of `k` if present,
otherwise append a new binding. -/
def recordSet {α β : Type} [DecidableEq α] (m : List (α × β)) (k : α) (v : β) : List (α × β) :=
  if m.any (fun p => decide (p.1 = k)) then
    m.map (fun p => if p.1 = k then (k, v) else p)
  else m ++ [(k, v)]

/-- The mutable state of the renumbering loop in `execute`. -/
@[ext] structure LoopState where
  tree : List Char
  offset : Int
  j : Nat
  xpaths : List (Option String)

/-- One iteration of the loop body of `execute` (source lines 56-64) on
match `m` = (match.index, captured id).  The full match text has length
id.length + 3 (brackets and trailing space). -/
def step (nm : List (List Char × String)) (st : LoopState) (m : Nat × List Char) : LoopState :=
  { tree := jsSlice st.tree 0 ((m.1 : Int) + st.offset) ++ rep st.j ++
      jsSliceFrom st.tree ((m.1 : Int) + ((m.2.length + 3 : Nat) : Int) + st.offset)
    offset := st.offset + (((rep st.j).length : Int) - ((m.2.length + 3 : Nat) : Int))
    j := st.j + 1
    xpaths := st.xpaths ++ [recordGet nm m.2] }

/-- The whole `for (const match of matches)` loop of `execute`. -/
def renumberLoop (nm : List (List Char × String)) (ms : List (Nat × List Char))
    (st : LoopState) : LoopState :=
  ms.foldl (step nm) st

/-- The per-item body of `CdpTools.execute` after both fetches resolved:
given the fetched tree text and the fetched nodes map, produce the
renumbered tree and the xpath sequence pushed into the result item. -/
def execute (tree : String) (nm : List (List Char × String)) :
    String × List (Option String) :=
  (⟨(renumberLoop nm (scanI 0 tree.data) ⟨tree.data, 0, 0, []⟩).tree⟩,
   (renumberLoop nm (scanI 0 tree.data) ⟨tree.data, 0, 0, []⟩).xpaths)

/-- Fueled reference rewrite used to state what the loop produces: copy
characters until a match, there emit the replacement for the running
counter and continue after the match. -/
def rwF : Nat → Nat → List Char → List Char
  | 0, _, _ => []
  | f + 1, j, cs =>
    match matchMarkerAt cs with
    | some (_, tl) => rep j ++ rwF f (j + 1) tl
    | none =>
      match cs with
      | [] => []
      | c :: rest => c :: rwF f j rest

/-- Reference rewrite with enough fuel. -/
def rwI (j : Nat) (cs : List Char) : List Char := rwF (cs.length + 1) j cs

/-- Interleaving of gap texts with marker texts: with gaps g0..gN and ids
m0..m(N-1) this is g0, marker m0, g1, marker m1, ..., gN. -/
def interleave : List (List Char) → List (List Char) → List Char
  | g :: gs, id :: ids => g ++ marker id ++ interleave gs ids
  | g :: _, [] => g
  | [], _ => []

/-- Both slice positions computed by every iteration of the loop stay within
the bounds of the current string. -/
def slicesInBounds (nm : List (List Char × String)) :
    List (Nat × List Char) → LoopState → Prop
  | [], _ => True
  | m :: rest, st =>
      0 ≤ (m.1 : Int) + st.offset ∧
      (m.1 : Int) + ((m.2.length + 3 : Nat) : Int) + st.offset ≤ (st.tree.length : Int) ∧
      slicesInBounds nm rest (step nm st m)

/-- A nonempty all-digit id text. -/
def isDigitStr (l : List Char) : Prop := l ≠ [] ∧ ∀ c ∈ l, c.isDigit = true

/-- The id texts accepted by the marker pattern: digits, or digits, hyphen, digits. -/
def isMarkerId (id : List Char) : Prop :=
  isDigitStr id ∨ ∃ d1 d2, id = d1 ++ '-' :: d2 ∧ isDigitStr d1 ∧ isDigitStr d2

/-- The element list built inside `getNodesMap`'s intercepted model call
(source lines 123-134): all marker ids of the tree whose text contains a
hyphen, in order, kept as both elementId and description. -/
def observeElements (tree : String) : List (List Char) :=
  ((scanI 0 tree.data).map (fun m => m.2)).filter (fun id => decide ('-' ∈ id))

/-- Modelled from the spec: the observe path of the external library (the
LocatorMapProvider of section 6) is not part of this repository; per the
spec it derives a locator for each element handed to it, echoing each
element's description alongside the derived selector. -/
def observeModel (sel : List Char → String) (elements : List (List Char)) :
    List (List Char × String) :=
  elements.map (fun d => (d, sel d))

/-- The reduce of `getNodesMap` (source lines 151-157): fold the observe
results into a record mapping description to selector. -/
def buildRecord (results : List (List Char × String)) : List (List Char × String) :=
  results.foldl (fun acc r => recordSet acc r.1 r.2) []

/-- `getNodesMap` as a map builder: elements from the tree, locators from
the (spec-modelled) observe collaborator, folded into a record. -/
def getNodesMap (sel : List Char → String) (tree : String) : List (List Char × String) :=
  buildRecord (observeModel sel (observeElements tree))

/-- Control flow of `getNodesMap` (source lines 145-163): a failure of
`stagehand.init` escapes the function; the observe call and the reduce sit
inside `try ... catch` with an empty handler, so any failure there is
swallowed and the trailing `return` yields the empty record. -/
def getNodesMapFlow (initRes : Except String Unit)
    (observeRes : Except String (List (List Char × String))) :
    Except String (List (List Char × String)) :=
  match initRes with
  | .error e => .error e
  | .ok _ =>
    match observeRes with
    | .ok results => .ok (buildRecord results)
    | .error _ => .ok []

/-- Control flow of one item of `CdpTools.execute` (source lines 46-74):
no try/catch, so a rejection of `getAccessibilityTree` or of `getNodesMap`
rejects the whole call; otherwise the renumbering loop runs. -/
def executeFlow (treeRes : Except String String) (mapInit : Except String Unit)
    (mapObs : Except String (List (List Char × String))) :
    Except String (String × List (Option String)) :=
  match treeRes with
  | .error e => .error e
  | .ok tree =>
    match getNodesMapFlow mapInit mapObs with
    | .error e => .error e
    | .ok nm => .ok (execute tree nm)

/-! ### List helpers -/

theorem take_len_append {α : Type} (a b : List α) : (a ++ b).take a.length = a := by
  induction a with
  | nil => simp
  | cons x xs ih => simp [ih]

theorem drop_len_append {α : Type} (a b : List α) : (a ++ b).drop a.length = b := by
  induction a with
  | nil => simp
  | cons x xs ih => simp [ih]

theorem takeWhile_append_all {p : Char → Bool} {a : List Char} (b : List Char)
    (h : ∀ c ∈ a, p c = true) : (a ++ b).takeWhile p = a ++ b.takeWhile p := by
  induction a with
  | nil => simp
  | cons x xs ih =>
    have hx : p x = true := h x (by simp)
    simp only [List.cons_append, List.takeWhile_cons_of_pos hx]
    rw [ih (fun c hc => h c (by simp [hc]))]

theorem dropWhile_append_all {p : Char → Bool} {a : List Char} (b : List Char)
    (h : ∀ c ∈ a, p c = true) : (a ++ b).dropWhile p = b.dropWhile p := by
  induction a with
  | nil => simp
  | cons x xs ih =>
    have hx : p x = true := h x (by simp)
    simp only [List.cons_append, List.dropWhile_cons_of_pos hx]
    exact ih (fun c hc => h c (by simp [hc]))

theorem takeWhile_nil_of_head {p : Char → Bool} {l : List Char}
    (h : ∀ c, l.head? = some c → p c = false) : l.takeWhile p = [] := by
  cases l with
  | nil => simp
  | cons x xs =>
    have hx : p x = false := h x rfl
    have hx' : ¬ p x = true := by simp [hx]
    simp [List.takeWhile_cons_of_neg hx']

theorem dropWhile_self_of_head {p : Char → Bool} {l : List Char}
    (h : ∀ c, l.head? = some c → p c = false) : l.dropWhile p = l := by
  cases l with
  | nil => simp
  | cons x xs =>
    have hx : p x = false := h x rfl
    have hx' : ¬ p x = true := by simp [hx]
    simp [List.dropWhile_cons_of_neg hx']

theorem head_dropWhile_false {p : Char → Bool} {l : List Char} {c : Char}
    (h : (l.dropWhile p).head? = some c) : p c = false := by
  induction l with
  | nil => simp at h
  | cons x xs ih =>
    by_cases hx : p x
    · rw [List.dropWhile_cons_of_pos hx] at h
      exact ih h
    · rw [List.dropWhile_cons_of_neg hx] at h
      simp at h
      rw [← h]
      exact eq_false_of_ne_true hx

theorem mem_takeWhile_true {p : Char → Bool} {l : List Char} {c : Char}
    (h : c ∈ l.takeWhile p) : p c = true := by
  induction l with
  | nil => simp at h
  | cons x xs ih =>
    by_cases hx : p x
    · rw [List.takeWhile_cons_of_pos hx] at h
      rcases List.mem_cons.mp h with h1 | h2
      · rw [h1]; exact hx
      · exact ih h2
    · rw [List.takeWhile_cons_of_neg hx] at h
      simp at h

/-! ### Digit rendering -/

theorem digitChar_isDigit {n : Nat} (h : n < 10) : (digitChar n).isDigit = true := by
  interval_cases n <;> decide

theorem natDigitsAux_ne_nil {f n : Nat} (hf : 1 ≤ f) : natDigitsAux f n ≠ [] := by
  cases f with
  | zero => omega
  | succ f =>
    unfold natDigitsAux
    split <;> simp

theorem natDigits_ne_nil (n : Nat) : natDigits n ≠ [] :=
  natDigitsAux_ne_nil (by omega)

theorem natDigitsAux_digits {f n : Nat} : ∀ c ∈ natDigitsAux f n, c.isDigit = true := by
  induction f generalizing n with
  | zero => intro c hc; simp [natDigitsAux] at hc
  | succ f ih =>
    intro c hc
    unfold natDigitsAux at hc
    split at hc
    · simp at hc
      rw [hc]
      exact digitChar_isDigit (by omega)
    · rcases List.mem_append.mp hc with h1 | h2
      · exact ih c h1
      · simp at h2
        rw [h2]
        exact digitChar_isDigit (Nat.mod_lt _ (by omega))

theorem natDigits_digits (n : Nat) : ∀ c ∈ natDigits n, c.isDigit = true :=
  natDigitsAux_digits

theorem isDigit_ne_lbrack {c : Char} (h : c.isDigit = true) : c ≠ '[' := by
  intro hc
  rw [hc] at h
  simp at h

theorem isDigit_ne_of_not {c d : Char} (h : c.isDigit = true) (hd : d.isDigit = false) :
    c ≠ d := by
  intro hcd
  rw [hcd, hd] at h
  cases h

/-! ### Structure of a successful match -/

theorem mma_nil : matchMarkerAt [] = none := rfl

theorem mma_not_lbrack {c : Char} (t : List Char) (h : c ≠ '[') :
    matchMarkerAt (c :: t) = none := by
  simp [matchMarkerAt, h]

theorem mma_some_decomp {cs id tl : List Char}
    (h : matchMarkerAt cs = some (id, tl)) :
    cs = '[' :: id ++ ']' :: ' ' :: tl ∧ isMarkerId id := by
  cases cs with
  | nil => simp [matchMarkerAt] at h
  | cons c rest =>
    unfold matchMarkerAt at h
    by_cases hc : c = '['
    swap
    · simp [hc] at h
    simp only [if_pos hc] at h
    by_cases hd1 : rest.takeWhile Char.isDigit = []
    · simp [hd1] at h
    simp only [if_neg hd1] at h
    have hrest : rest.takeWhile Char.isDigit ++ rest.dropWhile Char.isDigit = rest :=
      List.takeWhile_append_dropWhile _ _
    cases hr1 : rest.dropWhile Char.isDigit with
    | nil => rw [hr1] at h; simp at h
    | cons c2 r2 =>
      rw [hr1] at h
      by_cases hc2 : c2 = '-'
      · simp only [if_pos hc2] at h
        by_cases hd2 : r2.takeWhile Char.isDigit = []
        · simp [hd2] at h
        simp only [if_neg hd2] at h
        have hr2full : r2.takeWhile Char.isDigit ++ r2.dropWhile Char.isDigit = r2 :=
          List.takeWhile_append_dropWhile _ _
        cases hr3 : r2.dropWhile Char.isDigit with
        | nil => rw [hr3] at h; simp at h
        | cons c3 rest3 =>
          cases rest3 with
          | nil => rw [hr3] at h; simp at h
          | cons c4 tl' =>
            rw [hr3] at h
            by_cases hcc : c3 = ']' ∧ c4 = ' '
            · simp only [if_pos hcc, Option.some.injEq, Prod.mk.injEq] at h
              obtain ⟨hid, htl⟩ := h
              constructor
              · calc c :: rest
                    = '[' :: (rest.takeWhile Char.isDigit ++ rest.dropWhile Char.isDigit) := by
                      rw [hc, hrest]
                  _ = '[' :: (rest.takeWhile Char.isDigit ++
                        '-' :: (r2.takeWhile Char.isDigit ++ r2.dropWhile Char.isDigit)) := by
                      rw [hr1, hc2, hr2full]
                  _ = '[' :: (rest.takeWhile Char.isDigit ++
                        '-' :: (r2.takeWhile Char.isDigit ++ ']' :: ' ' :: tl)) := by
                      rw [hr3, hcc.1, hcc.2, htl]
                  _ = '[' :: id ++ ']' :: ' ' :: tl := by rw [← hid]; simp
              · right
                refine ⟨rest.takeWhile Char.isDigit, r2.takeWhile Char.isDigit, ?_, ?_, ?_⟩
                · rw [← hid]
                · exact ⟨hd1, fun c hc => mem_takeWhile_true hc⟩
                · exact ⟨hd2, fun c hc => mem_takeWhile_true hc⟩
            · simp [hcc] at h
      · by_cases hc2' : c2 = ']'
        swap
        · simp [hc2, hc2'] at h
        simp only [if_neg hc2, if_pos hc2'] at h
        cases r2 with
        | nil => simp at h
        | cons c4 tl' =>
          by_cases hc4 : c4 = ' '
          · simp only [if_pos hc4, Option.some.injEq, Prod.mk.injEq] at h
            obtain ⟨hid, htl⟩ := h
            constructor
            · calc c :: rest
                  = '[' :: (rest.takeWhile Char.isDigit ++ rest.dropWhile Char.isDigit) := by
                    rw [hc, hrest]
                _ = '[' :: (rest.takeWhile Char.isDigit ++ ']' :: ' ' :: tl) := by
                    rw [hr1, hc2', hc4, htl]
                _ = '[' :: id ++ ']' :: ' ' :: tl := by rw [hid]; simp
            · left
              exact ⟨by rw [← hid]; exact hd1,
                fun c hc => by rw [← hid] at hc; exact mem_takeWhile_true hc⟩
          · simp [hc4] at h

theorem mma_some_len {cs id tl : List Char}
    (h : matchMarkerAt cs = some (id, tl)) :
    cs.length = id.length + 3 + tl.length := by
  have := (mma_some_decomp h).1
  rw [this]
  simp
  omega

theorem mma_some_id_ne_nil {cs id tl : List Char}
    (h : matchMarkerAt cs = some (id, tl)) : id ≠ [] := by
  rcases (mma_some_decomp h).2 with h1 | ⟨d1, d2, heq, h1, _⟩
  · exact h1.1
  · rw [heq]; simp

theorem mma_eval_plain {d1 : List Char} (tl : List Char) (hne : d1 ≠ [])
    (hdig : ∀ c ∈ d1, c.isDigit = true) :
    matchMarkerAt ('[' :: d1 ++ ']' :: ' ' :: tl) = some (d1, tl) := by
  have hrb : Char.isDigit ']' = false := by decide
  have htw : (d1 ++ ']' :: ' ' :: tl).takeWhile Char.isDigit = d1 := by
    rw [takeWhile_append_all _ hdig,
      takeWhile_nil_of_head (fun c hc => by simp at hc; rw [← hc]; exact hrb)]
    simp
  have hdw : (d1 ++ ']' :: ' ' :: tl).dropWhile Char.isDigit = ']' :: ' ' :: tl := by
    rw [dropWhile_append_all _ hdig]
    exact dropWhile_self_of_head (fun c hc => by simp at hc; rw [← hc]; exact hrb)
  simp [matchMarkerAt, htw, hdw, hne]

theorem mma_eval_hyph {d1 d2 : List Char} (tl : List Char)
    (hne1 : d1 ≠ []) (hdig1 : ∀ c ∈ d1, c.isDigit = true)
    (hne2 : d2 ≠ []) (hdig2 : ∀ c ∈ d2, c.isDigit = true) :
    matchMarkerAt ('[' :: (d1 ++ '-' :: d2) ++ ']' :: ' ' :: tl) =
      some (d1 ++ '-' :: d2, tl) := by
  have hhy : Char.isDigit '-' = false := by decide
  have hrb : Char.isDigit ']' = false := by decide
  have htw2 : (d2 ++ ']' :: ' ' :: tl).takeWhile Char.isDigit = d2 := by
    rw [takeWhile_append_all _ hdig2,
      takeWhile_nil_of_head (fun c hc => by simp at hc; rw [← hc]; exact hrb)]
    simp
  have hdw2 : (d2 ++ ']' :: ' ' :: tl).dropWhile Char.isDigit = ']' :: ' ' :: tl := by
    rw [dropWhile_append_all _ hdig2]
    exact dropWhile_self_of_head (fun c hc => by simp at hc; rw [← hc]; exact hrb)
  have hsh : '[' :: (d1 ++ '-' :: d2) ++ ']' :: ' ' :: tl =
      '[' :: (d1 ++ '-' :: (d2 ++ ']' :: ' ' :: tl)) := by
    simp
  have htw : (d1 ++ '-' :: (d2 ++ ']' :: ' ' :: tl)).takeWhile Char.isDigit = d1 := by
    rw [takeWhile_append_all _ hdig1,
      takeWhile_nil_of_head (fun c hc => by simp at hc; rw [← hc]; exact hhy)]
    simp
  have hdw : (d1 ++ '-' :: (d2 ++ ']' :: ' ' :: tl)).dropWhile Char.isDigit =
      '-' :: (d2 ++ ']' :: ' ' :: tl) := by
    rw [dropWhile_append_all _ hdig1]
    exact dropWhile_self_of_head (fun c hc => by simp at hc; rw [← hc]; exact hhy)
  rw [hsh]
  simp [matchMarkerAt, htw, hdw, htw2, hdw2, hne1, hne2]

theorem mma_marker {id : List Char} (tl : List Char) (h : isMarkerId id) :
    matchMarkerAt (marker id ++ tl) = some (id, tl) := by
  have hsh : marker id ++ tl = '[' :: id ++ ']' :: ' ' :: tl := by simp [marker]
  rw [hsh]
  rcases h with ⟨hne, hdig⟩ | ⟨d1, d2, heq, ⟨hne1, hdig1⟩, ⟨hne2, hdig2⟩⟩
  · exact mma_eval_plain tl hne hdig
  · rw [heq]
    exact mma_eval_hyph tl hne1 hdig1 hne2 hdig2

theorem isMarkerId_natDigits (j : Nat) : isMarkerId (natDigits j) :=
  Or.inl ⟨natDigits_ne_nil j, natDigits_digits j⟩

theorem mma_rep (j : Nat) (tl : List Char) :
    matchMarkerAt (rep j ++ tl) = some (natDigits j, tl) :=
  mma_marker tl (isMarkerId_natDigits j)

/-! ### Fuel congruence and unfolding equations for the scan and the rewrite -/

theorem scanF_succ (f i : Nat) (cs : List Char) :
    scanF (f + 1) i cs =
      match matchMarkerAt cs with
      | some (id, tl) => (i, id) :: scanF f (i + (id.length + 3)) tl
      | none =>
        match cs with
        | [] => []
        | _ :: rest => scanF f (i + 1) rest := rfl

theorem rwF_succ (f j : Nat) (cs : List Char) :
    rwF (f + 1) j cs =
      match matchMarkerAt cs with
      | some (_, tl) => rep j ++ rwF f (j + 1) tl
      | none =>
        match cs with
        | [] => []
        | c :: rest => c :: rwF f j rest := rfl

theorem scanF_congr : ∀ f g i cs, cs.length < f → cs.length < g →
    scanF f i cs = scanF g i cs := by
  intro f
  induction f with
  | zero => intro g i cs hf; omega
  | succ f ih =>
    intro g i cs hf hg
    cases g with
    | zero => omega
    | succ g =>
      rw [scanF_succ, scanF_succ]
      cases h : matchMarkerAt cs with
      | some p =>
        obtain ⟨id, tl⟩ := p
        have hlen := mma_some_len h
        simp only
        rw [ih g (i + (id.length + 3)) tl (by omega) (by omega)]
      | none =>
        cases cs with
        | nil => simp
        | cons c rest =>
          simp only
          rw [ih g (i + 1) rest (by simp at hf; omega) (by simp at hg; omega)]

theorem rwF_congr : ∀ f g j cs, cs.length < f → cs.length < g →
    rwF f j cs = rwF g j cs := by
  intro f
  induction f with
  | zero => intro g j cs hf; omega
  | succ f ih =>
    intro g j cs hf hg
    cases g with
    | zero => omega
    | succ g =>
      rw [rwF_succ, rwF_succ]
      cases h : matchMarkerAt cs with
      | some p =>
        obtain ⟨id, tl⟩ := p
        have hlen := mma_some_len h
        simp only
        rw [ih g (j + 1) tl (by omega) (by omega)]
      | none =>
        cases cs with
        | nil => simp
        | cons c rest =>
          simp only
          rw [ih g j rest (by simp at hf; omega) (by simp at hg; omega)]

theorem scanI_nil (i : Nat) : scanI i [] = [] := rfl

theorem scanI_none {c : Char} {t : List Char} (i : Nat)
    (h : matchMarkerAt (c :: t) = none) : scanI i (c :: t) = scanI (i + 1) t := by
  show scanF (t.length + 1 + 1) i (c :: t) = scanI (i + 1) t
  rw [scanF_succ, h]
  rfl

theorem scanI_some {cs id tl : List Char} (i : Nat)
    (h : matchMarkerAt cs = some (id, tl)) :
    scanI i cs = (i, id) :: scanI (i + (id.length + 3)) tl := by
  have hlen := mma_some_len h
  show scanF (cs.length + 1) i cs = _
  cases hcs : cs with
  | nil => rw [hcs] at h; simp [matchMarkerAt] at h
  | cons c rest =>
    rw [← hcs]
    cases hf : cs.length + 1 with
    | zero => omega
    | succ f =>
      rw [scanF_succ, h]
      simp only [List.cons.injEq, true_and]
      exact scanF_congr f (tl.length + 1) _ tl (by omega) (by omega)

theorem rwI_nil (j : Nat) : rwI j [] = [] := rfl

theorem rwI_none {c : Char} {t : List Char} (j : Nat)
    (h : matchMarkerAt (c :: t) = none) : rwI j (c :: t) = c :: rwI j t := by
  show rwF (t.length + 1 + 1) j (c :: t) = c :: rwI j t
  rw [rwF_succ, h]
  rfl

theorem rwI_some {cs id tl : List Char} (j : Nat)
    (h : matchMarkerAt cs = some (id, tl)) :
    rwI j cs = rep j ++ rwI (j + 1) tl := by
  have hlen := mma_some_len h
  show rwF (cs.length + 1) j cs = _
  cases hf : cs.length + 1 with
  | zero => omega
  | succ f =>
    rw [rwF_succ, h]
    simp only [List.append_cancel_left_eq]
    exact rwF_congr f (tl.length + 1) _ tl (by omega) (by omega)

/-! ### The loop computes the reference rewrite -/

theorem jsSlice_zero_len (a b : List Char) :
    jsSlice (a ++ b) 0 (a.length : Int) = a := by
  unfold jsSlice jsClamp
  rw [if_neg (by omega : ¬ ((0 : Int) < 0)), if_neg (by omega : ¬ ((a.length : Int) < 0))]
  have h3 : min (Int.toNat (a.length : Int)) (a ++ b).length = a.length := by
    rw [Int.toNat_natCast, List.length_append]
    exact Nat.min_eq_left (Nat.le_add_right _ _)
  rw [h3]
  simp [take_len_append]

theorem jsSliceFrom_len (a b : List Char) :
    jsSliceFrom (a ++ b) (a.length : Int) = b := by
  unfold jsSliceFrom jsClamp
  rw [if_neg (by omega : ¬ ((a.length : Int) < 0))]
  have h3 : min (Int.toNat (a.length : Int)) (a ++ b).length = a.length := by
    rw [Int.toNat_natCast, List.length_append]
    exact Nat.min_eq_left (Nat.le_add_right _ _)
  rw [h3, drop_len_append]

theorem renumberLoop_cons (nm : List (List Char × String)) (m : Nat × List Char)
    (ms : List (Nat × List Char)) (st : LoopState) :
    renumberLoop nm (m :: ms) st = renumberLoop nm ms (step nm st m) := rfl

theorem renumberLoop_nil (nm : List (List Char × String)) (st : LoopState) :
    renumberLoop nm [] st = st := rfl

theorem step_eq (nm : List (List Char × String)) (done id tl : List Char)
    (i j : Nat) (xp : List (Option String)) :
    step nm ⟨done ++ ('[' :: id ++ ']' :: ' ' :: tl), (done.length : Int) - (i : Int), j, xp⟩
      (i, id) =
    ⟨(done ++ rep j) ++ tl,
     ((done ++ rep j).length : Int) - (((i + (id.length + 3)) : Nat) : Int),
     j + 1, xp ++ [recordGet nm id]⟩ := by
  have e1 : (i : Int) + ((done.length : Int) - (i : Int)) = (done.length : Int) := by ring
  have hT : done ++ ('[' :: id ++ ']' :: ' ' :: tl) =
      (done ++ ('[' :: id ++ [']', ' '])) ++ tl := by simp
  have hA : ((done ++ ('[' :: id ++ [']', ' '])).length) = done.length + (id.length + 3) := by
    simp
  have e2 : (i : Int) + ((id.length + 3 : Nat) : Int) + ((done.length : Int) - (i : Int)) =
      (((done ++ ('[' :: id ++ [']', ' '])).length : Nat) : Int) := by
    rw [hA]
    push_cast
    ring
  have e3 : ((done ++ rep j).length : Int) - (((i + (id.length + 3)) : Nat) : Int) =
      ((done.length : Int) - (i : Int)) +
        (((rep j).length : Int) - ((id.length + 3 : Nat) : Int)) := by
    push_cast [List.length_append]
    ring
  apply LoopState.ext
  case tree =>
    simp only [step]
    rw [e1, jsSlice_zero_len, e2, hT, jsSliceFrom_len]
  case offset =>
    simp only [step]
    rw [e3]
  case j => rfl
  case xpaths => rfl

theorem loop_inv (nm : List (List Char × String)) :
    ∀ f s, s.length < f → ∀ (i j : Nat) (done : List Char) (xp : List (Option String)),
    renumberLoop nm (scanF f i s) ⟨done ++ s, (done.length : Int) - (i : Int), j, xp⟩ =
      ⟨done ++ rwF f j s,
       ((done.length : Int) + ((rwF f j s).length : Int)) - ((i : Int) + (s.length : Int)),
       j + (scanF f i s).length,
       xp ++ (scanF f i s).map (fun m => recordGet nm m.2)⟩ := by
  intro f
  induction f with
  | zero => intro s hs; omega
  | succ f ih =>
    intro s hs i j done xp
    cases h : matchMarkerAt s with
    | none =>
      cases s with
      | nil =>
        have hscan : scanF (f + 1) i ([] : List Char) = [] := rfl
        have hrw : rwF (f + 1) j ([] : List Char) = [] := rfl
        rw [hscan, hrw, renumberLoop_nil]
        apply LoopState.ext
        case tree => simp
        case offset => simp
        case j => simp
        case xpaths => simp
      | cons c rest =>
        have hscan : scanF (f + 1) i (c :: rest) = scanF f (i + 1) rest := by
          rw [scanF_succ, h]
        have hrw : rwF (f + 1) j (c :: rest) = c :: rwF f j rest := by
          rw [rwF_succ, h]
        rw [hscan, hrw]
        have hstate : (⟨done ++ c :: rest, (done.length : Int) - (i : Int), j, xp⟩ : LoopState) =
            ⟨(done ++ [c]) ++ rest, (((done ++ [c]).length : Nat) : Int) - ((i + 1 : Nat) : Int),
             j, xp⟩ := by
          apply LoopState.ext
          case tree => simp
          case offset => push_cast [List.length_append, List.length_cons, List.length_nil]; ring
          case j => rfl
          case xpaths => rfl
        rw [hstate, ih rest (by simp at hs; omega) (i + 1) j (done ++ [c]) xp]
        apply LoopState.ext
        case tree => simp
        case offset => push_cast [List.length_append, List.length_cons, List.length_nil]; ring
        case j => rfl
        case xpaths => rfl
    | some p =>
      obtain ⟨id, tl⟩ := p
      have hdec := (mma_some_decomp h).1
      have hlen := mma_some_len h
      have hscan : scanF (f + 1) i s = (i, id) :: scanF f (i + (id.length + 3)) tl := by
        rw [scanF_succ, h]
      have hrw : rwF (f + 1) j s = rep j ++ rwF f (j + 1) tl := by
        rw [rwF_succ, h]
      rw [hscan, hrw, hdec, renumberLoop_cons, step_eq,
        ih tl (by omega) (i + (id.length + 3)) (j + 1) (done ++ rep j) (xp ++ [recordGet nm id])]
      apply LoopState.ext
      case tree => simp
      case offset => push_cast [List.length_append, List.length_cons, List.length_nil]; ring
      case j => simp only [List.length_cons]; omega
      case xpaths => simp

theorem execute_spec (tree : String) (nm : List (List Char × String)) :
    execute tree nm =
      (⟨rwI 0 tree.data⟩, (scanI 0 tree.data).map (fun m => recordGet nm m.2)) := by
  have hst : (⟨tree.data, 0, 0, []⟩ : LoopState) =
      ⟨([] : List Char) ++ tree.data,
       ((([] : List Char).length : Nat) : Int) - ((0 : Nat) : Int), 0, []⟩ := by
    apply LoopState.ext
    case tree => simp
    case offset => simp
    case j => rfl
    case xpaths => rfl
  unfold execute scanI rwI
  rw [hst, loop_inv nm (tree.data.length + 1) tree.data (by omega) 0 0 [] []]
  simp

/-! ### Gap decomposition: input and output interleave the same gaps -/

theorem interleave_cons_gap (c : Char) (g0 : List Char) (gs ids : List (List Char)) :
    interleave ((c :: g0) :: gs) ids = c :: interleave (g0 :: gs) ids := by
  cases ids <;> simp [interleave]

theorem decompF : ∀ f s, s.length < f → ∀ i j, ∃ gaps : List (List Char),
    gaps.length = (scanF f i s).length + 1 ∧
    s = interleave gaps ((scanF f i s).map (fun m => m.2)) ∧
    rwF f j s =
      interleave gaps ((List.range (scanF f i s).length).map (fun k => natDigits (j + k))) := by
  intro f
  induction f with
  | zero => intro s hs; omega
  | succ f ih =>
    intro s hs i j
    cases h : matchMarkerAt s with
    | none =>
      cases s with
      | nil =>
        have hscan : scanF (f + 1) i ([] : List Char) = [] := rfl
        have hrw : rwF (f + 1) j ([] : List Char) = [] := rfl
        refine ⟨[[]], ?_, ?_, ?_⟩ <;> simp [interleave, hscan, hrw]
      | cons c rest =>
        have hscan : scanF (f + 1) i (c :: rest) = scanF f (i + 1) rest := by
          rw [scanF_succ, h]
        have hrw : rwF (f + 1) j (c :: rest) = c :: rwF f j rest := by
          rw [rwF_succ, h]
        obtain ⟨gaps, hglen, hseq, hrweq⟩ := ih rest (by simp at hs; omega) (i + 1) j
        cases gaps with
        | nil => simp at hglen
        | cons g0 gs =>
          refine ⟨(c :: g0) :: gs, ?_, ?_, ?_⟩
          · rw [hscan]
            simp at hglen ⊢
            omega
          · rw [hscan, interleave_cons_gap]
            exact congrArg (c :: ·) hseq
          · rw [hscan, hrw, interleave_cons_gap]
            exact congrArg (c :: ·) hrweq
    | some p =>
      obtain ⟨id, tl⟩ := p
      have hdec := (mma_some_decomp h).1
      have hlen := mma_some_len h
      have hscan : scanF (f + 1) i s = (i, id) :: scanF f (i + (id.length + 3)) tl := by
        rw [scanF_succ, h]
      have hrw : rwF (f + 1) j s = rep j ++ rwF f (j + 1) tl := by
        rw [rwF_succ, h]
      obtain ⟨gapsT, hglen, hseq, hrweq⟩ := ih tl (by omega) (i + (id.length + 3)) (j + 1)
      refine ⟨[] :: gapsT, ?_, ?_, ?_⟩
      · rw [hscan]
        simp at hglen ⊢
        omega
      · rw [hscan, hdec]
        simp only [List.map_cons, interleave, List.nil_append]
        rw [← hseq]
        simp [marker]
      · rw [hscan, hrw]
        simp only [List.length_cons, List.range_succ_eq_map, List.map_cons, List.map_map]
        simp only [interleave, List.nil_append]
        have hcomp : ((fun k => natDigits (j + k)) ∘ Nat.succ) =
            (fun k => natDigits ((j + 1) + k)) := by
          funext k
          simp only [Function.comp]
          congr 1
          omega
        rw [hcomp, ← hrweq]
        simp [rep]

/-! ### Structural idempotence of the rewrite -/

theorem isMarkerId_no_lbrack {id : List Char} (h : isMarkerId id) :
    ∀ ch ∈ id, ch ≠ '[' := by
  rcases h with ⟨_, hdig⟩ | ⟨d1, d2, heq, ⟨_, hd1⟩, ⟨_, hd2⟩⟩
  · exact fun ch hch => isDigit_ne_lbrack (hdig ch hch)
  · intro ch hch
    rw [heq] at hch
    rcases List.mem_append.mp hch with h1 | h2
    · exact isDigit_ne_lbrack (hd1 ch h1)
    · rcases List.mem_cons.mp h2 with h3 | h4
      · rw [h3]; decide
      · exact isDigit_ne_lbrack (hd2 ch h4)

theorem rw_agree (j : Nat) : ∀ (a t u : List Char),
    (∀ ch ∈ a, ch ≠ '[') → rwI j t = a ++ u → ∃ u', t = a ++ u' := by
  intro a
  induction a with
  | nil => intro t u _ _; exact ⟨t, rfl⟩
  | cons x a' ih =>
    intro t u hnb heq
    cases t with
    | nil =>
      rw [rwI_nil] at heq
      exact absurd heq.symm (by simp)
    | cons c0 t0 =>
      cases hm : matchMarkerAt (c0 :: t0) with
      | none =>
        rw [rwI_none j hm, List.cons_append] at heq
        have hc0 : c0 = x := by
          have := congrArg List.head? heq
          simpa using this
        have htail : rwI j t0 = a' ++ u := by
          have := congrArg List.tail heq
          simpa using this
        obtain ⟨u', hu'⟩ := ih t0 u (fun ch hch => hnb ch (by simp [hch])) htail
        exact ⟨u', by rw [hc0, hu', List.cons_append]⟩
      | some p =>
        obtain ⟨idm, tlm⟩ := p
        rw [rwI_some j hm] at heq
        have hx : x = '[' := by
          have := congrArg List.head? heq
          simp [rep, marker] at this
          exact this.symm
        exact absurd hx (hnb x (by simp))

theorem mma_rw_none (j : Nat) {c : Char} {t : List Char}
    (h : matchMarkerAt (c :: t) = none) :
    matchMarkerAt (c :: rwI j t) = none := by
  by_cases hc : c = '['
  swap
  · exact mma_not_lbrack _ hc
  subst hc
  cases hm : matchMarkerAt ('[' :: rwI j t) with
  | none => rfl
  | some p =>
    obtain ⟨id, tl⟩ := p
    obtain ⟨hdec, hvalid⟩ := mma_some_decomp hm
    have hrw : rwI j t = id ++ ']' :: ' ' :: tl := by
      have := congrArg List.tail hdec
      simpa using this
    have hnb : ∀ ch ∈ (id ++ [']', ' ']), ch ≠ '[' := by
      intro ch hch
      rcases List.mem_append.mp hch with h1 | h2
      · exact isMarkerId_no_lbrack hvalid ch h1
      · rcases List.mem_cons.mp h2 with h3 | h4
        · rw [h3]; decide
        · simp at h4; rw [h4]; decide
    obtain ⟨u', hu'⟩ := rw_agree j (id ++ [']', ' ']) t tl hnb (by rw [hrw]; simp)
    have hmt : matchMarkerAt ('[' :: t) = some (id, u') := by
      rw [hu']
      have hsh : '[' :: ((id ++ [']', ' ']) ++ u') = marker id ++ u' := by
        simp [marker]
      rw [hsh]
      exact mma_marker u' hvalid
    rw [h] at hmt
    exact Option.noConfusion hmt

theorem rwI_idem_aux : ∀ n s, s.length ≤ n → ∀ j, rwI j (rwI j s) = rwI j s := by
  intro n
  induction n with
  | zero =>
    intro s hs j
    have : s = [] := List.eq_nil_of_length_eq_zero (by omega)
    rw [this, rwI_nil, rwI_nil]
  | succ n ih =>
    intro s hs j
    cases h : matchMarkerAt s with
    | none =>
      cases s with
      | nil => rw [rwI_nil, rwI_nil]
      | cons c t =>
        rw [rwI_none j h]
        have h2 : matchMarkerAt (c :: rwI j t) = none := mma_rw_none j h
        rw [rwI_none j h2, ih t (by simp at hs; omega) j]
    | some p =>
      obtain ⟨id, tl⟩ := p
      have hlen := mma_some_len h
      rw [rwI_some j h]
      have h2 : matchMarkerAt (rep j ++ rwI (j + 1) tl) =
          some (natDigits j, rwI (j + 1) tl) := mma_rep j _
      rw [rwI_some j h2, ih tl (by omega) (j + 1)]

theorem rwI_idem (j : Nat) (s : List Char) : rwI j (rwI j s) = rwI j s :=
  rwI_idem_aux s.length s (le_refl _) j

/-! ### The scan of a rewritten tree has the same number of matches -/

theorem scan_rwI_len_aux : ∀ n s, s.length ≤ n → ∀ j i i',
    (scanI i (rwI j s)).length = (scanI i' s).length := by
  intro n
  induction n with
  | zero =>
    intro s hs j i i'
    have : s = [] := List.eq_nil_of_length_eq_zero (by omega)
    rw [this, rwI_nil]
    rfl
  | succ n ih =>
    intro s hs j i i'
    cases h : matchMarkerAt s with
    | none =>
      cases s with
      | nil => rfl
      | cons c t =>
        rw [rwI_none j h, scanI_none i (mma_rw_none j h), scanI_none i' h]
        exact ih t (by simp at hs; omega) j (i + 1) (i' + 1)
    | some p =>
      obtain ⟨id, tl⟩ := p
      have hlen := mma_some_len h
      rw [rwI_some j h, scanI_some i (mma_rep j _), scanI_some i' h]
      simp only [List.length_cons]
      rw [ih tl (by omega) (j + 1) (i + ((natDigits j).length + 3)) (i' + (id.length + 3))]

/-! ### Keys of the built nodes-map record -/

theorem recordSet_keys_mem {α β : Type} [DecidableEq α] (m : List (α × β)) (k' : α) (v : β)
    (k : α) : (k ∈ (recordSet m k' v).map Prod.fst) ↔ (k ∈ m.map Prod.fst ∨ k = k') := by
  unfold recordSet
  split
  case isTrue hany =>
    have hkeys : ((m.map (fun p => if p.1 = k' then (k', v) else p)).map Prod.fst) =
        m.map Prod.fst := by
      rw [List.map_map]
      apply List.map_congr_left
      intro p _
      by_cases hpk : p.1 = k'
      · simp [Function.comp, hpk]
      · simp [Function.comp, hpk]
    rw [hkeys]
    constructor
    · exact Or.inl
    · rintro (hk | rfl)
      · exact hk
      · obtain ⟨p, hp, hpk⟩ := List.any_eq_true.mp hany
        simp only [decide_eq_true_eq] at hpk
        exact List.mem_map.mpr ⟨p, hp, hpk⟩
  case isFalse =>
    simp

theorem buildRecord_keys_mem (results : List (List Char × String)) (k : List Char) :
    (k ∈ (buildRecord results).map Prod.fst) ↔ k ∈ results.map Prod.fst := by
  unfold buildRecord
  suffices h : ∀ (m : List (List Char × String)),
      (k ∈ (results.foldl (fun acc r => recordSet acc r.1 r.2) m).map Prod.fst) ↔
        (k ∈ m.map Prod.fst ∨ k ∈ results.map Prod.fst) by
    rw [h []]
    simp
  induction results with
  | nil => intro m; simp
  | cons r rs ih =>
    intro m
    simp only [List.foldl_cons, List.map_cons, List.mem_cons]
    rw [ih (recordSet m r.1 r.2), recordSet_keys_mem]
    tauto

/-! ### Identity on match-free input -/

theorem scanI_nil_of_noMatch : ∀ n s, s.length ≤ n →
    (∀ k, matchMarkerAt (s.drop k) = none) → ∀ i, scanI i s = [] := by
  intro n
  induction n with
  | zero =>
    intro s hs _ i
    have : s = [] := List.eq_nil_of_length_eq_zero (by omega)
    rw [this]
    rfl
  | succ n ih =>
    intro s hs hnone i
    cases s with
    | nil => rfl
    | cons c t =>
      have h0 : matchMarkerAt (c :: t) = none := by
        have := hnone 0
        simpa using this
      rw [scanI_none i h0]
      exact ih t (by simp at hs; omega) (fun k => by have := hnone (k + 1); simpa using this) (i + 1)

theorem rwI_id_of_noMatch : ∀ n s, s.length ≤ n →
    (∀ k, matchMarkerAt (s.drop k) = none) → ∀ j, rwI j s = s := by
  intro n
  induction n with
  | zero =>
    intro s hs _ j
    have : s = [] := List.eq_nil_of_length_eq_zero (by omega)
    rw [this, rwI_nil]
  | succ n ih =>
    intro s hs hnone j
    cases s with
    | nil => rw [rwI_nil]
    | cons c t =>
      have h0 : matchMarkerAt (c :: t) = none := by
        have := hnone 0
        simpa using this
      rw [rwI_none j h0]
      rw [ih t (by simp at hs; omega) (fun k => by have := hnone (k + 1); simpa using this) j]

theorem noMatch_of_bounded {s : List Char}
    (h : ∀ k, k < s.length → matchMarkerAt (s.drop k) = none) :
    ∀ k, matchMarkerAt (s.drop k) = none := by
  intro k
  by_cases hk : k < s.length
  · exact h k hk
  · rw [List.drop_eq_nil_of_le (by omega)]
    rfl

/-! ### Slice positions stay in bounds -/

theorem slicesInBounds_cons (nm : List (List Char × String)) (m : Nat × List Char)
    (ms : List (Nat × List Char)) (st : LoopState) :
    slicesInBounds nm (m :: ms) st ↔
      (0 ≤ (m.1 : Int) + st.offset ∧
       (m.1 : Int) + ((m.2.length + 3 : Nat) : Int) + st.offset ≤ (st.tree.length : Int) ∧
       slicesInBounds nm ms (step nm st m)) := Iff.rfl

theorem bounds_inv (nm : List (List Char × String)) :
    ∀ f s, s.length < f → ∀ (i j : Nat) (done : List Char) (xp : List (Option String)),
    slicesInBounds nm (scanF f i s) ⟨done ++ s, (done.length : Int) - (i : Int), j, xp⟩ := by
  intro f
  induction f with
  | zero => intro s hs; omega
  | succ f ih =>
    intro s hs i j done xp
    cases h : matchMarkerAt s with
    | none =>
      cases s with
      | nil =>
        have hscan : scanF (f + 1) i ([] : List Char) = [] := rfl
        rw [hscan]
        trivial
      | cons c rest =>
        have hscan : scanF (f + 1) i (c :: rest) = scanF f (i + 1) rest := by
          rw [scanF_succ, h]
        rw [hscan]
        have hstate : (⟨done ++ c :: rest, (done.length : Int) - (i : Int), j, xp⟩ : LoopState) =
            ⟨(done ++ [c]) ++ rest, (((done ++ [c]).length : Nat) : Int) - ((i + 1 : Nat) : Int),
             j, xp⟩ := by
          apply LoopState.ext
          case tree => simp
          case offset => push_cast [List.length_append, List.length_cons, List.length_nil]; ring
          case j => rfl
          case xpaths => rfl
        rw [hstate]
        exact ih rest (by simp at hs; omega) (i + 1) j (done ++ [c]) xp
    | some p =>
      obtain ⟨id, tl⟩ := p
      have hdec := (mma_some_decomp h).1
      have hlen := mma_some_len h
      have hscan : scanF (f + 1) i s = (i, id) :: scanF f (i + (id.length + 3)) tl := by
        rw [scanF_succ, h]
      rw [hscan, hdec, slicesInBounds_cons]
      refine ⟨?_, ?_, ?_⟩
      · simp only
        omega
      · simp only
        have hL : (done ++ ('[' :: id ++ ']' :: ' ' :: tl)).length =
            done.length + (id.length + 3 + tl.length) := by
          simp
          omega
        rw [hL]
        push_cast
        omega
      · rw [step_eq]
        exact ih tl (by omega) (i + (id.length + 3)) (j + 1) (done ++ rep j)
          (xp ++ [recordGet nm id])

/-! ### The claims -/

/-- Claim C1: density of renumbering.  For every input tree text, the input
splits into gaps interleaved with the matched markers, and the output of
`execute` is the same gaps interleaved with the markers numbered 0 .. N-1
in left-to-right order: the i-th marker (0-based, in encounter order) is
rewritten to the literal text of i, regardless of the original ids. -/
theorem claim_C1_density (tree : String) (nm : List (List Char × String)) :
    ∃ gaps : List (List Char),
      gaps.length = (scanI 0 tree.data).length + 1 ∧
      tree.data = interleave gaps ((scanI 0 tree.data).map (fun m => m.2)) ∧
      ((execute tree nm).1).data =
        interleave gaps ((List.range (scanI 0 tree.data).length).map natDigits) := by
  obtain ⟨gaps, h1, h2, h3⟩ := decompF (tree.data.length + 1) tree.data (by omega) 0 0
  refine ⟨gaps, h1, h2, ?_⟩
  rw [execute_spec]
  show rwI 0 tree.data = _
  rw [show rwI 0 tree.data = rwF (tree.data.length + 1) 0 tree.data from rfl, h3]
  congr 1
  apply List.map_congr_left
  intro a _
  rw [Nat.zero_add]

/-- Claim C2: locator alignment.  The xpath sequence produced by `execute`
has exactly one entry per regex match, and its i-th entry is the record
lookup of the i-th match's original id: the mapped value when the id is a
key, `none` (absent) otherwise — an unmapped id never causes a failure. -/
theorem claim_C2_locators (tree : String) (nm : List (List Char × String)) :
    (execute tree nm).2 = (scanI 0 tree.data).map (fun m => recordGet nm m.2) ∧
    (execute tree nm).2.length = (scanI 0 tree.data).length := by
  constructor
  · rw [execute_spec]
  · rw [execute_spec]
    simp

/-- Claim C3: byte-for-byte preservation outside markers.  The same gap
texts interleave the markers of the input and the renumbered markers of the
output, so every character outside the matched marker substrings is
identical between input and output even when replacement ids have different
digit lengths. -/
theorem claim_C3_outside_text (tree : String) (nm : List (List Char × String)) :
    ∃ gaps : List (List Char),
      tree.data = interleave gaps ((scanI 0 tree.data).map (fun m => m.2)) ∧
      ((execute tree nm).1).data =
        interleave gaps ((List.range (scanI 0 tree.data).length).map natDigits) ∧
      gaps.length = (scanI 0 tree.data).length + 1 := by
  obtain ⟨gaps, h1, h2, h3⟩ := decompF (tree.data.length + 1) tree.data (by omega) 0 0
  refine ⟨gaps, h2, ?_, h1⟩
  rw [execute_spec]
  show rwI 0 tree.data = _
  rw [show rwI 0 tree.data = rwF (tree.data.length + 1) 0 tree.data from rfl, h3]
  congr 1
  apply List.map_congr_left
  intro a _
  rw [Nat.zero_add]

/-- Claim C6: identity on marker-free input.  When no position of the input
text matches the marker pattern (the empty text included), `execute`
returns the input tree unchanged and an empty locator sequence, with no
error. -/
theorem claim_C6_identity (tree : String) (nm : List (List Char × String))
    (h : ∀ k, matchMarkerAt (tree.data.drop k) = none) :
    execute tree nm = (tree, []) := by
  have h1 : scanI 0 tree.data = [] :=
    scanI_nil_of_noMatch tree.data.length tree.data (le_refl _) h 0
  have h2 : rwI 0 tree.data = tree.data :=
    rwI_id_of_noMatch tree.data.length tree.data (le_refl _) h 0
  rw [execute_spec, h1, h2]
  cases tree
  rfl

/-- Witness for claim C6: a text whose bracketed substrings miss the
trailing space (hence match nothing), and the empty text. -/
theorem claim_C6_identity_witness :
    execute "x [5]y" [(['5'], "a")] = ("x [5]y", []) ∧ execute "" [] = ("", []) := by
  constructor
  · exact claim_C6_identity "x [5]y" [(['5'], "a")] (noMatch_of_bounded (by decide))
  · exact claim_C6_identity "" [] (noMatch_of_bounded (by decide))

/-- Claim C7: duplicate-id independence.  Two markers with the same id are
renumbered by position and both resolve their locator from the same
original id. -/
theorem claim_C7_duplicates :
    execute "[5] x [5] y" [(['5'], "loc-Z")] =
      ("[0] x [1] y", [some "loc-Z", some "loc-Z"]) := by
  decide

/-- Claim C8: marker-pattern exactness.  The matcher succeeds at a position
exactly when the text there is an opening bracket, a valid id (digits, or
digits hyphen digits), a closing bracket and a space; anything else is
never matched. -/
theorem claim_C8_pattern (cs id tl : List Char) :
    matchMarkerAt cs = some (id, tl) ↔
      (cs = '[' :: id ++ ']' :: ' ' :: tl ∧ isMarkerId id) := by
  constructor
  · exact mma_some_decomp
  · rintro ⟨rfl, hvalid⟩
    have h := mma_marker tl hvalid
    rw [show marker id ++ tl = '[' :: id ++ ']' :: ' ' :: tl by simp [marker]] at h
    exact h

/-- Claim C9: structural idempotence.  Running `execute` on its own output
tree leaves the tree unchanged and yields a locator sequence of the same
length, for any locator maps. -/
theorem claim_C9_idempotence (tree : String) (nm nm' : List (List Char × String)) :
    (execute (execute tree nm).1 nm').1 = (execute tree nm).1 ∧
    (execute (execute tree nm).1 nm').2.length = (execute tree nm).2.length := by
  have h1 : (execute tree nm).1 = ⟨rwI 0 tree.data⟩ := by rw [execute_spec]
  constructor
  · rw [h1, execute_spec]
    show (⟨rwI 0 (rwI 0 tree.data)⟩ : String) = (⟨rwI 0 tree.data⟩ : String)
    rw [rwI_idem]
  · rw [h1, execute_spec, execute_spec]
    simp only [List.length_map]
    exact scan_rwI_len_aux tree.data.length tree.data (le_refl _) 0 0 0

/-- Claim C10: totality and slice safety of the renumbering pass.  The
embedded loop is a total function; both slice positions of every iteration
(match offset corrected by the cumulative length delta) lie within the
bounds of the current string; and for every map (keys missing included) an
output is produced with one locator slot per match, missing keys reading as
`none` rather than failing. -/
theorem claim_C10_safety (tree : String) (nm : List (List Char × String)) :
    slicesInBounds nm (scanI 0 tree.data) ⟨tree.data, 0, 0, []⟩ ∧
    (execute tree nm).2 = (scanI 0 tree.data).map (fun m => recordGet nm m.2) ∧
    (execute tree nm).2.length = (scanI 0 tree.data).length := by
  refine ⟨?_, ?_, ?_⟩
  · have hst : (⟨tree.data, 0, 0, []⟩ : LoopState) =
        ⟨([] : List Char) ++ tree.data,
         ((([] : List Char).length : Nat) : Int) - ((0 : Nat) : Int), 0, []⟩ := by
      apply LoopState.ext
      case tree => simp
      case offset => simp
      case j => rfl
      case xpaths => rfl
    rw [hst]
    exact bounds_inv nm (tree.data.length + 1) tree.data (by omega) 0 0 [] []
  · rw [execute_spec]
  · rw [execute_spec]
    simp

/-- Claim C4, counterexample: the spec says the nodes-map keys are exactly
the leaf-style (bare-integer) ids of the tree, but the code keeps exactly
the hyphenated ids: for the tree with markers 5 and 9-2, the leaf id 5 is
not a key while the hyphenated id 9-2 is the only key. -/
theorem claim_C4_cex :
    (['5'] ∈ ((scanI 0 ("[5] x [9-2] y").data).map (fun m => m.2))) ∧
    ('-' ∉ ['5']) ∧
    (['5'] ∉ (getNodesMap (fun _ => "sel") "[5] x [9-2] y").map Prod.fst) ∧
    (getNodesMap (fun _ => "sel") "[5] x [9-2] y").map Prod.fst = [['9', '-', '2']] := by
  decide

/-- Claim C4 as amended: the keys of the nodes map built for a tree are
exactly the marker ids of the tree whose text contains a hyphen
(grouping-style ids); bare-integer leaf-style ids are never keys. -/
theorem claim_C4_amended (sel : List Char → String) (tree : String) (k : List Char) :
    (k ∈ (getNodesMap sel tree).map Prod.fst) ↔
      (k ∈ ((scanI 0 tree.data).map (fun m => m.2)) ∧ '-' ∈ k) := by
  unfold getNodesMap observeModel observeElements
  rw [buildRecord_keys_mem]
  simp [List.mem_filter]

/-- Claim C5, counterexample: a transport failure of the locator-map
observe phase is not reported to the caller; the call succeeds with an
empty map and the renumbering component still runs. -/
theorem claim_C5_cex :
    executeFlow (.ok "[1] a") (.ok ()) (.error "transport error") =
      .ok ("[0] a", [none]) := by
  have h : execute "[1] a" [] = ("[0] a", [none]) := by decide
  show Except.ok (execute "[1] a" []) = Except.ok ("[0] a", [none])
  rw [h]

/-- Claim C5 as amended: a failure of the tree fetch, and a failure of the
locator-map session init, propagate unchanged to the caller and the
renumbering loop is not invoked; but a failure during the locator-map
observe phase is swallowed by the empty catch handler in `getNodesMap`,
which then returns the empty record, and renumbering runs on it. -/
theorem claim_C5_amended :
    (∀ (e : String) (mi : Except String Unit) (mo : Except String (List (List Char × String))),
      executeFlow (.error e) mi mo = .error e) ∧
    (∀ (e : String) (t : String) (mo : Except String (List (List Char × String))),
      executeFlow (.ok t) (.error e) mo = .error e) ∧
    (∀ (e : String) (t : String),
      executeFlow (.ok t) (.ok ()) (.error e) = .ok (execute t [])) :=
  ⟨fun _ _ _ => rfl, fun _ _ _ => rfl, fun _ _ => rfl⟩
